import Mathlib

/-!
Verification of the timesheet processing core (identity resolution and
time consolidation) of the `xero-timesheets` repository, shallowly embedded
in Lean 4.  Dates are modelled as integer day numbers (days since
1970-01-01, which was a Thursday); the source stores ISO `YYYY-MM-DD`
strings, which correspond bijectively to day numbers.  Hours are modelled
as rationals (the source uses JS numbers produced by `parseFloat`).
-/

namespace XeroTimesheets

/-- Hour categories of a time entry (source: `hour_type` strings). -/
inductive HourType
  | REGULAR
  | OVERTIME
  | TRAVEL
  | HOLIDAY
  deriving DecidableEq, Repr

/-- A time entry, from the `employee.entries` element shape in
`src/app/api/process-timesheets/route.ts` and `src/server/routes.ts`:
`{ entry_date, region_name, hours, hour_type, overtime_rate }`. -/
structure Entry where
  entry_date : ℤ
  region_name : String
  hours : ℚ
  hour_type : HourType
  overtime_rate : Option ℚ
  deriving DecidableEq, Repr

/-- Sum of the `hours` fields of a list of entries. -/
def sumHours (l : List Entry) : ℚ :=
  (l.map Entry.hours).sum

/-- Core loop of `redistributeHoursForOvertime` / the week branch of
`calculateOvertimeHours`: consume entries one by one (the caller passes the
bucket reversed, because the source iterates `i` from the last index down),
moving `min (entry.hours) remaining` hours from each entry into a freshly
created OVERTIME entry with the same date, region and overtime rate, and
stopping once the remaining excess is no longer positive. -/
def allocGo : ℚ → List Entry → List Entry × List Entry
  | _, [] => ([], [])
  | rem, e :: rest =>
    if rem ≤ 0 then (e :: rest, [])
    else
      let used := min e.hours rem
      if 0 < used then
        let p := allocGo (rem - used) rest
        ({ e with hours := e.hours - used } :: p.1,
          { entry_date := e.entry_date, region_name := e.region_name,
            hours := used, hour_type := HourType.OVERTIME,
            overtime_rate := e.overtime_rate } :: p.2)
      else
        let p := allocGo rem rest
        (e :: p.1, p.2)

/-- `redistributeHoursForOvertime(weekEntries, overtimeHours, employee)`
(`src/server/routes.ts` lines 466-501): the source walks the bucket array
from its last element to its first; we get the same processing order by
reversing the list, running `allocGo`, and restoring the order.  Returns
the updated regular entries (original order) and the created OVERTIME
entries (creation order). -/
def redistributeHoursForOvertime (weekEntries : List Entry)
    (overtimeHours : ℚ) : List Entry × List Entry :=
  let p := allocGo overtimeHours weekEntries.reverse
  (p.1.reverse, p.2)

/-- Per-bucket body of `calculateOvertimeHours`
(`src/app/api/process-timesheets/route.ts` lines 93-136): if the bucket's
total exceeds 40, redistribute the excess into OVERTIME entries and then
drop REGULAR entries whose hours reached exactly 0; otherwise leave the
bucket untouched. -/
def calculateOvertimeWeek (weekEntries : List Entry) : List Entry × List Entry :=
  let total := sumHours weekEntries
  if 40 < total then
    let p := redistributeHoursForOvertime weekEntries (total - 40)
    (p.1.filter (fun e => ¬ e.hours = 0), p.2)
  else (weekEntries, [])

/-- `getWeekStart` (`src/server/routes.ts` lines 458-464 and
`src/app/api/process-timesheets/route.ts` lines 86-91): JS `getDay` returns
0 = Sunday .. 6 = Saturday; day 0 of our day-number scale (1970-01-01) was a
Thursday, so `getDay` is `(d + 4) mod 7`. -/
def jsGetDay (d : ℤ) : ℤ :=
  (d + 4) % 7

/-- `getWeekStart`: `diff = getDate() - day + (day === 0 ? -6 : 1)`, then
`setDate(diff)`; `setDate` with out-of-range values rolls over across month
boundaries, so on day numbers the net effect is adding `-day + adj` days. -/
def getWeekStart (d : ℤ) : ℤ :=
  d - jsGetDay d + (if jsGetDay d = 0 then -6 else 1)

/-- Weekday index with Monday = 1 .. Sunday = 7, as used by the spec's
description of the weekly bucket key. -/
def weekdayIndexMon1 (d : ℤ) : ℤ :=
  if jsGetDay d = 0 then 7 else jsGetDay d

/-- The spec's formula for the weekly bucket key (stated for comparison
with `getWeekStart`): Sunday maps to `d - 6`, otherwise `d - (wi - 1)`. -/
def specWeekStart (d : ℤ) : ℤ :=
  if weekdayIndexMon1 d = 7 then d - 6 else d - (weekdayIndexMon1 d - 1)

/-- Insert an entry into a list sorted by descending date, keeping it
before the first element whose date is not larger (stable). -/
def insDesc (e : Entry) : List Entry → List Entry
  | [] => [e]
  | x :: xs =>
    if x.entry_date ≤ e.entry_date then e :: x :: xs else x :: insDesc e xs

/-- Stable insertion sort by descending `entry_date`. -/
def sortByDateDesc (l : List Entry) : List Entry :=
  l.foldr insDesc []

/-- Stated for comparison with `calculateOvertimeWeek` following the spec's
words: the spec demands that the excess be taken from the bucket's entries
in reverse chronological order (latest `entry_date` first), each entry
giving up `min (hours) remaining` into a new OVERTIME entry with the same
date, region and overtime rate, stopping at zero remaining excess. -/
def specCalculateOvertimeWeek (weekEntries : List Entry) :
    List Entry × List Entry :=
  let total := sumHours weekEntries
  if 40 < total then
    let p := allocGo (total - 40) (sortByDateDesc weekEntries)
    (p.1.reverse.filter (fun e => ¬ e.hours = 0), p.2)
  else (weekEntries, [])

/-- Scenario-B-style bucket: five 9-hour REGULAR days Monday to Friday,
stored in chronological order (day numbers 20241..20245 are
2025-06-02..2025-06-06). -/
def bucketScenarioB : List Entry :=
  [⟨20241, "North", 9, HourType.REGULAR, none⟩,
   ⟨20242, "North", 9, HourType.REGULAR, none⟩,
   ⟨20243, "North", 9, HourType.REGULAR, none⟩,
   ⟨20244, "North", 9, HourType.REGULAR, none⟩,
   ⟨20245, "North", 9, HourType.REGULAR, none⟩]

/-- A weekly bucket whose stored order is not chronological: the Tuesday
entry (day 20242, 5h) was appended before the Monday entry (day 20241,
39h), as happens when one employee appears on several region sheets. -/
def bucketOutOfOrder : List Entry :=
  [⟨20242, "North", 5, HourType.REGULAR, none⟩,
   ⟨20241, "North", 39, HourType.REGULAR, none⟩]

theorem sumHours_nil : sumHours [] = 0 := rfl

theorem sumHours_cons (e : Entry) (l : List Entry) :
    sumHours (e :: l) = e.hours + sumHours l := by
  simp [sumHours]

theorem sumHours_reverse (l : List Entry) :
    sumHours l.reverse = sumHours l := by
  unfold sumHours
  rw [List.map_reverse, List.sum_reverse]

theorem sumHours_nonneg (l : List Entry) (h : ∀ e ∈ l, 0 ≤ e.hours) :
    0 ≤ sumHours l := by
  induction l with
  | nil => simp [sumHours]
  | cons e rest ih =>
    rw [sumHours_cons]
    have h1 := h e (List.mem_cons_self e rest)
    have h2 := ih fun x hx => h x (List.mem_cons_of_mem e hx)
    linarith

theorem sumHours_filter_ne_zero (l : List Entry) :
    sumHours (l.filter (fun e => ¬ e.hours = 0)) = sumHours l := by
  induction l with
  | nil => rfl
  | cons e rest ih =>
    by_cases h : e.hours = 0
    · rw [sumHours_cons, h]
      simp only [List.filter_cons]
      rw [if_neg (by simp [h])]
      rw [ih]
      ring
    · simp only [List.filter_cons]
      rw [if_pos (by simp [h])]
      rw [sumHours_cons, sumHours_cons, ih]

theorem allocGo_conservation (rem : ℚ) (l : List Entry) :
    sumHours (allocGo rem l).1 + sumHours (allocGo rem l).2 = sumHours l := by
  induction l generalizing rem with
  | nil => simp [allocGo, sumHours]
  | cons e rest ih =>
    by_cases h0 : rem ≤ 0
    · simp [allocGo, h0, sumHours]
    · by_cases h1 : 0 < min e.hours rem
      · have h := ih (rem - min e.hours rem)
        simp only [allocGo, if_neg h0, if_pos h1, sumHours_cons]
        linarith
      · have h := ih rem
        simp only [allocGo, if_neg h0, if_neg h1, sumHours_cons]
        linarith

theorem allocGo_absorbs (rem : ℚ) (l : List Entry) (h0 : 0 ≤ rem)
    (hle : rem ≤ sumHours l) (hpos : ∀ e ∈ l, 0 ≤ e.hours) :
    sumHours (allocGo rem l).2 = rem := by
  induction l generalizing rem with
  | nil =>
    simp only [sumHours_nil] at hle
    simp only [allocGo, sumHours_nil]
    linarith
  | cons e rest ih =>
    have hepos : 0 ≤ e.hours := hpos e (List.mem_cons_self e rest)
    have hrest : ∀ x ∈ rest, 0 ≤ x.hours :=
      fun x hx => hpos x (List.mem_cons_of_mem e hx)
    rw [sumHours_cons] at hle
    by_cases hz : rem ≤ 0
    · have : rem = 0 := le_antisymm hz h0
      simp [allocGo, hz, sumHours, this]
    · push_neg at hz
      by_cases h1 : 0 < min e.hours rem
      · simp only [allocGo, if_neg (not_le.mpr hz), if_pos h1, sumHours_cons]
        have hmin : min e.hours rem ≤ e.hours := min_le_left _ _
        have hmin2 : min e.hours rem ≤ rem := min_le_right _ _
        have hrec := ih (rem - min e.hours rem) (by linarith)
          (by
            rcases le_total e.hours rem with hc | hc
            · rw [min_eq_left hc]; linarith
            · rw [min_eq_right hc]
              have := sumHours_nonneg rest hrest
              linarith)
          hrest
        rw [hrec]
        ring
      · push_neg at h1
        have hez : e.hours = 0 := by
          rcases le_total e.hours rem with hc | hc
          · rw [min_eq_left hc] at h1; linarith
          · rw [min_eq_right hc] at h1; linarith
        simp only [allocGo, if_neg (not_le.mpr hz), if_neg (not_lt.mpr h1)]
        exact ih rem h0 (by rw [hez] at hle; linarith) hrest

/-- C1: for a weekly bucket of REGULAR entries with nonnegative hours and
pre-allocation total `T`, the allocator conserves hours (updated REGULAR
sum plus newly created OVERTIME sum equals `T`) and leaves at most 40
REGULAR hours. -/
theorem overtime_week_conservation (weekEntries : List Entry)
    (hpos : ∀ e ∈ weekEntries, 0 ≤ e.hours) :
    sumHours (calculateOvertimeWeek weekEntries).1 +
        sumHours (calculateOvertimeWeek weekEntries).2 =
      sumHours weekEntries ∧
    sumHours (calculateOvertimeWeek weekEntries).1 ≤ 40 := by
  unfold calculateOvertimeWeek redistributeHoursForOvertime
  by_cases h : 40 < sumHours weekEntries
  · simp only [if_pos h]
    have hrevpos : ∀ e ∈ weekEntries.reverse, 0 ≤ e.hours := by
      intro e he
      exact hpos e (List.mem_reverse.mp he)
    have habs := allocGo_absorbs (sumHours weekEntries - 40)
      weekEntries.reverse (by linarith)
      (by rw [sumHours_reverse]; linarith) hrevpos
    have hcons := allocGo_conservation (sumHours weekEntries - 40)
      weekEntries.reverse
    rw [sumHours_reverse] at hcons
    constructor
    · dsimp only
      rw [sumHours_filter_ne_zero, sumHours_reverse]
      exact hcons
    · dsimp only
      rw [sumHours_filter_ne_zero, sumHours_reverse]
      linarith
  · simp only [if_neg h]
    constructor
    · simp [sumHours]
    · push_neg at h
      simpa using h

/-- Witness for `overtime_week_conservation` at the Scenario-B bucket
(5 × 9h = 45h): conservation and the 40-hour cap hold there. -/
theorem overtime_week_conservation_witness :
    sumHours (calculateOvertimeWeek bucketScenarioB).1 +
        sumHours (calculateOvertimeWeek bucketScenarioB).2 =
      sumHours bucketScenarioB ∧
    sumHours (calculateOvertimeWeek bucketScenarioB).1 ≤ 40 :=
  overtime_week_conservation bucketScenarioB (by
    intro e he
    fin_cases he <;> norm_num [bucketScenarioB])

/-- C9: the weekly bucket key computed by `getWeekStart` agrees with the
spec's Monday-anchored formula (Sunday maps to `date - 6`, otherwise
`date - (weekday_index - 1)` with Monday = 1 .. Sunday = 7), and the
result always falls on a Monday. -/
theorem getWeekStart_spec (d : ℤ) :
    getWeekStart d = specWeekStart d ∧ jsGetDay (getWeekStart d) = 1 := by
  unfold getWeekStart specWeekStart weekdayIndexMon1 jsGetDay
  constructor
  · split_ifs <;> omega
  · omega

theorem insDesc_of_lt (e : Entry) (m : List Entry)
    (h : ∀ x ∈ m, e.entry_date < x.entry_date) :
    insDesc e m = m ++ [e] := by
  induction m with
  | nil => rfl
  | cons x xs ih =>
    have hx := h x (List.mem_cons_self x xs)
    rw [insDesc, if_neg (not_le.mpr hx),
      ih fun y hy => h y (List.mem_cons_of_mem x hy)]
    rfl

theorem sortByDateDesc_of_ascending (l : List Entry)
    (h : l.Pairwise (fun a b => a.entry_date < b.entry_date)) :
    sortByDateDesc l = l.reverse := by
  induction l with
  | nil => rfl
  | cons a rest ih =>
    rw [List.pairwise_cons] at h
    have hstep : sortByDateDesc (a :: rest) = insDesc a (sortByDateDesc rest) :=
      rfl
    rw [hstep, ih h.2, insDesc_of_lt a rest.reverse
      (fun x hx => h.1 x (List.mem_reverse.mp hx)), List.reverse_cons]

/-- C3 (amended): the source walks the bucket array from its last stored
element to its first; this coincides with the spec's reverse chronological
order exactly when the bucket's stored order is strictly ascending by
date. -/
theorem overtime_order_of_sorted (weekEntries : List Entry)
    (h : weekEntries.Pairwise (fun a b => a.entry_date < b.entry_date)) :
    calculateOvertimeWeek weekEntries = specCalculateOvertimeWeek weekEntries := by
  unfold calculateOvertimeWeek specCalculateOvertimeWeek
    redistributeHoursForOvertime
  rw [sortByDateDesc_of_ascending weekEntries h]

/-- Witness for `overtime_order_of_sorted` at the chronologically stored
Scenario-B bucket. -/
theorem overtime_order_of_sorted_witness :
    calculateOvertimeWeek bucketScenarioB =
      specCalculateOvertimeWeek bucketScenarioB :=
  overtime_order_of_sorted bucketScenarioB (by
    norm_num [bucketScenarioB, List.pairwise_cons])

/-- C3 counterexample: on a bucket whose stored order is not chronological
(Tuesday 5h stored before Monday 39h, total 44h), the source takes the 4
excess hours from the *last stored* entry (Monday), while the claim's
reverse chronological rule would take them from the *latest dated* entry
(Tuesday); the produced OVERTIME entries differ. -/
theorem overtime_order_counterexample :
    calculateOvertimeWeek bucketOutOfOrder ≠
      specCalculateOvertimeWeek bucketOutOfOrder := by
  have h1 : (calculateOvertimeWeek bucketOutOfOrder).2.map Entry.entry_date =
      [20241] := by
    norm_num [calculateOvertimeWeek, redistributeHoursForOvertime, allocGo,
      sumHours, bucketOutOfOrder, min_def]
  have h2 : (specCalculateOvertimeWeek bucketOutOfOrder).2.map Entry.entry_date =
      [20242] := by
    norm_num [specCalculateOvertimeWeek, sortByDateDesc, insDesc, allocGo,
      sumHours, bucketOutOfOrder, min_def]
  intro h
  rw [h, h2] at h1
  norm_num at h1

/-- Aggregation key used by the site-sheet loop: the code looks up
`employee.entries.find(e => e.entry_date === dateString && e.region_name
=== regionName && e.hour_type === hourType)` (identity is the enclosing
`employeeData` map key). -/
def entryKey (e : Entry) : ℤ × String × HourType :=
  (e.entry_date, e.region_name, e.hour_type)

/-- One aggregation step of the site-sheet loop
(`src/app/api/process-timesheets/route.ts` lines 332-349 and
`src/unnamed/part_010` lines 116-121): if an entry with the same
(date, region, category) key exists, add the incoming hours to the first
such entry; otherwise append a new entry. -/
def addEntry : List Entry → Entry → List Entry
  | [], n => [n]
  | x :: xs, n =>
    if x.entry_date = n.entry_date ∧ x.region_name = n.region_name ∧
        x.hour_type = n.hour_type then
      { x with hours := x.hours + n.hours } :: xs
    else
      x :: addEntry xs n

theorem addEntry_key_mem (xs : List Entry) (n y : Entry)
    (hy : y ∈ addEntry xs n) :
    entryKey y ∈ xs.map entryKey ∨ entryKey y = entryKey n := by
  induction xs with
  | nil =>
    simp only [addEntry, List.mem_singleton] at hy
    right
    rw [hy]
  | cons x rest ih =>
    by_cases hc : x.entry_date = n.entry_date ∧ x.region_name = n.region_name ∧
        x.hour_type = n.hour_type
    · rw [addEntry, if_pos hc] at hy
      rcases List.mem_cons.mp hy with h | h
      · left
        rw [h]
        have hk : entryKey { x with hours := x.hours + n.hours } = entryKey x :=
          rfl
        rw [hk]
        exact List.mem_map_of_mem entryKey (List.mem_cons_self x rest)
      · left
        exact List.mem_map_of_mem entryKey (List.mem_cons_of_mem x h)
    · rw [addEntry, if_neg hc] at hy
      rcases List.mem_cons.mp hy with h | h
      · left
        rw [h]
        exact List.mem_map_of_mem entryKey (List.mem_cons_self x rest)
      · rcases ih h with hk | hk
        · left
          rcases List.mem_map.mp hk with ⟨z, hz, hzk⟩
          rw [← hzk]
          exact List.mem_map_of_mem entryKey (List.mem_cons_of_mem x hz)
        · right
          exact hk

theorem addEntry_pairwise (l : List Entry) (n : Entry)
    (h : l.Pairwise fun a b => entryKey a ≠ entryKey b) :
    (addEntry l n).Pairwise fun a b => entryKey a ≠ entryKey b := by
  induction l with
  | nil => simp [addEntry]
  | cons x rest ih =>
    rw [List.pairwise_cons] at h
    by_cases hc : x.entry_date = n.entry_date ∧ x.region_name = n.region_name ∧
        x.hour_type = n.hour_type
    · rw [addEntry, if_pos hc, List.pairwise_cons]
      exact ⟨fun y hy => h.1 y hy, h.2⟩
    · rw [addEntry, if_neg hc, List.pairwise_cons]
      refine ⟨fun y hy => ?_, ih h.2⟩
      rcases addEntry_key_mem rest n y hy with hk | hk
      · rcases List.mem_map.mp hk with ⟨z, hz, hzk⟩
        rw [← hzk]
        exact h.1 z hz
      · rw [hk]
        intro he
        apply hc
        simp only [entryKey, Prod.mk.injEq] at he
        exact ⟨he.1, he.2.1, he.2.2⟩

/-- C6: aggregation merges additively into the existing entry for the same
(identity, date, region, category) key, preserving "at most one entry per
key"; in particular two REGULAR observations for one identity on
2025-06-02 (day 20241) in region "North" with 3 and 4 hours aggregate to a
single 7-hour entry. -/
theorem aggregator_merges_by_key (l : List Entry) (n : Entry)
    (h : l.Pairwise fun a b => entryKey a ≠ entryKey b) :
    ((addEntry l n).Pairwise fun a b => entryKey a ≠ entryKey b) ∧
    addEntry (addEntry [] ⟨20241, "North", 3, HourType.REGULAR, none⟩)
        ⟨20241, "North", 4, HourType.REGULAR, none⟩ =
      [⟨20241, "North", 7, HourType.REGULAR, none⟩] := by
  refine ⟨addEntry_pairwise l n h, ?_⟩
  norm_num [addEntry]

/-- Witness for `aggregator_merges_by_key` at a concrete one-entry ledger
and a fresh observation with a different key. -/
theorem aggregator_merges_by_key_witness :
    ((addEntry [⟨20241, "North", 3, HourType.REGULAR, none⟩]
        ⟨20242, "South", 2, HourType.REGULAR, none⟩).Pairwise
      fun a b => entryKey a ≠ entryKey b) ∧
    addEntry (addEntry [] ⟨20241, "North", 3, HourType.REGULAR, none⟩)
        ⟨20241, "North", 4, HourType.REGULAR, none⟩ =
      [⟨20241, "North", 7, HourType.REGULAR, none⟩] :=
  aggregator_merges_by_key [⟨20241, "North", 3, HourType.REGULAR, none⟩]
    ⟨20242, "South", 2, HourType.REGULAR, none⟩ (by simp)

/-- `MatchConfidence` enum (`src/server/validation-system.ts`). -/
inductive MatchConfidence
  | HIGH
  | MEDIUM
  | LOW
  | NO_MATCH
  deriving DecidableEq, Repr

/-- Fuzzy-match thresholds from the settings manager
(`src/unnamed/part_015`), defaults `{high: 90, medium: 70, low: 50}`. -/
structure Thresholds where
  high : ℚ
  medium : ℚ
  low : ℚ
  deriving DecidableEq, Repr

def defaultThresholds : Thresholds :=
  ⟨90, 70, 50⟩

/-- `MatchResult` (`src/server/validation-system.ts`): suggestions carry
`(name, score)` pairs. -/
structure MatchResult where
  matched_name : Option String
  confidence : MatchConfidence
  confidence_score : ℚ
  suggestions : List (String × ℚ)
  requires_confirmation : Bool
  deriving DecidableEq, Repr

/-- Classification tail of `EnhancedFuzzyMatcher.findMatches`
(`src/server/validation-system.ts` lines 235-268), taking the
already-scored, descending-sorted suggestion list: the result starts as
NO_MATCH / score 0 / `requires_confirmation = true` with the list truncated
to `max_suggestions`; a non-empty list sets the score to the best score and
then walks the threshold ladder.  Note the LOW branch sets only the
confidence, leaving `matched_name` unset. -/
def findMatchesClassify (scores : List (String × ℚ)) (thr : Thresholds)
    (maxSuggestions : ℕ) : MatchResult :=
  match scores with
  | [] => ⟨none, MatchConfidence.NO_MATCH, 0, [], true⟩
  | best :: rest =>
    let sugg := (best :: rest).take maxSuggestions
    if 95 ≤ best.2 then
      ⟨some best.1, MatchConfidence.HIGH, best.2, sugg, false⟩
    else if thr.high ≤ best.2 then
      ⟨some best.1, MatchConfidence.HIGH, best.2, sugg, true⟩
    else if thr.medium ≤ best.2 then
      ⟨some best.1, MatchConfidence.MEDIUM, best.2, sugg, true⟩
    else if thr.low ≤ best.2 then
      ⟨none, MatchConfidence.LOW, best.2, sugg, true⟩
    else
      ⟨none, MatchConfidence.NO_MATCH, best.2, sugg, true⟩

/-- C2 (amended): the classifier's bands, as implemented.  The only
deviation from the claim is the LOW band: `low ≤ s < medium` yields tier
LOW with `matched_name` left null, not set to the best name. -/
theorem classifier_bands (scores : List (String × ℚ)) (thr : Thresholds)
    (m : ℕ) (best : String × ℚ) (rest : List (String × ℚ))
    (hs : scores = best :: rest)
    (h1 : thr.low ≤ thr.medium) (h2 : thr.medium ≤ thr.high)
    (h3 : thr.high ≤ 95) :
    (95 ≤ best.2 →
      (findMatchesClassify scores thr m).confidence = MatchConfidence.HIGH ∧
      (findMatchesClassify scores thr m).matched_name = some best.1 ∧
      (findMatchesClassify scores thr m).requires_confirmation = false) ∧
    (thr.high ≤ best.2 ∧ best.2 < 95 →
      (findMatchesClassify scores thr m).confidence = MatchConfidence.HIGH ∧
      (findMatchesClassify scores thr m).matched_name = some best.1 ∧
      (findMatchesClassify scores thr m).requires_confirmation = true) ∧
    (thr.medium ≤ best.2 ∧ best.2 < thr.high →
      (findMatchesClassify scores thr m).confidence = MatchConfidence.MEDIUM ∧
      (findMatchesClassify scores thr m).matched_name = some best.1) ∧
    (thr.low ≤ best.2 ∧ best.2 < thr.medium →
      (findMatchesClassify scores thr m).confidence = MatchConfidence.LOW ∧
      (findMatchesClassify scores thr m).matched_name = none) ∧
    (best.2 < thr.low →
      (findMatchesClassify scores thr m).confidence = MatchConfidence.NO_MATCH ∧
      (findMatchesClassify scores thr m).matched_name = none) := by
  subst hs
  refine ⟨fun h => ?_, fun h => ?_, fun h => ?_, fun h => ?_, fun h => ?_⟩ <;>
    simp only [findMatchesClassify] <;>
    split_ifs <;>
    simp_all <;>
    linarith

/-- Witness for `classifier_bands` at the default thresholds with a single
96-point suggestion: the auto-accept band applies. -/
theorem classifier_bands_witness :
    (95 ≤ (("Charlotte Danes", (96 : ℚ))).2 →
      (findMatchesClassify [("Charlotte Danes", 96)] defaultThresholds 5).confidence =
          MatchConfidence.HIGH ∧
      (findMatchesClassify [("Charlotte Danes", 96)] defaultThresholds 5).matched_name =
          some ("Charlotte Danes", (96 : ℚ)).1 ∧
      (findMatchesClassify [("Charlotte Danes", 96)] defaultThresholds
            5).requires_confirmation = false) ∧
    (defaultThresholds.high ≤ (("Charlotte Danes", (96 : ℚ))).2 ∧
        (("Charlotte Danes", (96 : ℚ))).2 < 95 →
      (findMatchesClassify [("Charlotte Danes", 96)] defaultThresholds 5).confidence =
          MatchConfidence.HIGH ∧
      (findMatchesClassify [("Charlotte Danes", 96)] defaultThresholds 5).matched_name =
          some ("Charlotte Danes", (96 : ℚ)).1 ∧
      (findMatchesClassify [("Charlotte Danes", 96)] defaultThresholds
            5).requires_confirmation = true) ∧
    (defaultThresholds.medium ≤ (("Charlotte Danes", (96 : ℚ))).2 ∧
        (("Charlotte Danes", (96 : ℚ))).2 < defaultThresholds.high →
      (findMatchesClassify [("Charlotte Danes", 96)] defaultThresholds 5).confidence =
          MatchConfidence.MEDIUM ∧
      (findMatchesClassify [("Charlotte Danes", 96)] defaultThresholds 5).matched_name =
          some ("Charlotte Danes", (96 : ℚ)).1) ∧
    (defaultThresholds.low ≤ (("Charlotte Danes", (96 : ℚ))).2 ∧
        (("Charlotte Danes", (96 : ℚ))).2 < defaultThresholds.medium →
      (findMatchesClassify [("Charlotte Danes", 96)] defaultThresholds 5).confidence =
          MatchConfidence.LOW ∧
      (findMatchesClassify [("Charlotte Danes", 96)] defaultThresholds 5).matched_name =
          none) ∧
    ((("Charlotte Danes", (96 : ℚ))).2 < defaultThresholds.low →
      (findMatchesClassify [("Charlotte Danes", 96)] defaultThresholds 5).confidence =
          MatchConfidence.NO_MATCH ∧
      (findMatchesClassify [("Charlotte Danes", 96)] defaultThresholds 5).matched_name =
          none) :=
  classifier_bands [("Charlotte Danes", 96)] defaultThresholds 5
    ("Charlotte Danes", 96) [] rfl (by norm_num [defaultThresholds])
    (by norm_num [defaultThresholds]) (by norm_num [defaultThresholds])

/-- C2 counterexample: with the default thresholds a best score of 60 falls
in the LOW band, and the code yields `matched_name = none`, not the best
name "Jack Allan" as the claim states. -/
theorem classifier_low_counterexample :
    (findMatchesClassify [("Jack Allan", 60)] defaultThresholds 5).confidence =
        MatchConfidence.LOW ∧
    (findMatchesClassify [("Jack Allan", 60)] defaultThresholds 5).matched_name =
        none ∧
    ¬ (findMatchesClassify [("Jack Allan", 60)] defaultThresholds 5).matched_name =
        some "Jack Allan" := by
  refine ⟨?_, ?_, ?_⟩ <;>
    · simp only [findMatchesClassify, defaultThresholds]
      norm_num
      try exact Option.noConfusion

/-- Outcome shape returned by the route-level `validateAndMatchEmployee`
helpers: `{ match, score, confidence, suggestions, needsConfirmation }`
(the score is on a 0..1 scale, `confidence_score / 100`). -/
structure MatchOutcome where
  matched : Option String
  score : ℚ
  confidence : MatchConfidence
  suggestions : List String
  needsConfirmation : Bool
  deriving DecidableEq, Repr

/-- Lookup into the parsed confirmations payload:
`Object.prototype.hasOwnProperty.call(confirmations, input)` followed by
`confirmations[input]`, modelled as association-list lookup. -/
def lookupConf (confirmations : List (String × Option String))
    (input : String) : Option (Option String) :=
  confirmations.lookup input

/-- `validateAndMatchEmployee` of the follow-up pass
(`src/unnamed/part_010` lines 43-60): an input present in the
confirmations map short-circuits — `null` means skip (match = null, so the
caller's `if (!res.match) continue` drops the observation), a name is
adopted as ground truth with score 1.0 (= 100% on the 0..1 scale), tier
HIGH, no suggestions, and the validator is never consulted; otherwise the
validator's `MatchResult` is adopted as-is (`match := matched_name`). -/
def followUpValidateAndMatchEmployee
    (confirmations : List (String × Option String)) (input : String)
    (matchResult : MatchResult) : MatchOutcome :=
  match lookupConf confirmations input with
  | some none => ⟨none, 0, MatchConfidence.NO_MATCH, [], false⟩
  | some (some confirmed) => ⟨some confirmed, 1, MatchConfidence.HIGH, [], false⟩
  | none =>
    ⟨matchResult.matched_name, matchResult.confidence_score / 100,
      matchResult.confidence, matchResult.suggestions.map Prod.fst, false⟩

/-- C4: a confirmations entry mapping the input text to a name `c` is
ground truth — for any validator result whatsoever the outcome is
matched = c, tier HIGH, score 1.0 (100%), empty suggestions; a `null`
mapping yields match = null, so the observation is skipped. -/
theorem confirmation_ground_truth :
    (∀ (confirmations : List (String × Option String)) (input c : String)
        (r : MatchResult),
      lookupConf confirmations input = some (some c) →
      followUpValidateAndMatchEmployee confirmations input r =
        ⟨some c, 1, MatchConfidence.HIGH, [], false⟩) ∧
    (∀ (confirmations : List (String × Option String)) (input : String)
        (r : MatchResult),
      lookupConf confirmations input = some none →
      (followUpValidateAndMatchEmployee confirmations input r).matched =
        none) := by
  constructor
  · intro confirmations input c r hc
    unfold followUpValidateAndMatchEmployee
    rw [hc]
  · intro confirmations input r hc
    unfold followUpValidateAndMatchEmployee
    rw [hc]

/-- Witness for `confirmation_ground_truth`: the spec's round-trip example
`{"Jon Allan": "Jack Allan"}` resolves "Jon Allan" to Jack Allan at tier
HIGH / score 1.0 with no suggestions, for an arbitrary stale validator
result; and a null mapping skips. -/
theorem confirmation_ground_truth_witness :
    followUpValidateAndMatchEmployee [("Jon Allan", some "Jack Allan")]
        "Jon Allan"
        ⟨none, MatchConfidence.NO_MATCH, 0, [("Andrew Dwyer", 55)], true⟩ =
      ⟨some "Jack Allan", 1, MatchConfidence.HIGH, [], false⟩ ∧
    (followUpValidateAndMatchEmployee [("Pamela Beesly", none)]
        "Pamela Beesly"
        ⟨some "Pamela Beesly", MatchConfidence.HIGH, 97, [], false⟩).matched =
      none :=
  ⟨confirmation_ground_truth.1 [("Jon Allan", some "Jack Allan")] "Jon Allan"
      "Jack Allan" ⟨none, MatchConfidence.NO_MATCH, 0, [("Andrew Dwyer", 55)], true⟩
      rfl,
    confirmation_ground_truth.2 [("Pamela Beesly", none)] "Pamela Beesly"
      ⟨some "Pamela Beesly", MatchConfidence.HIGH, 97, [], false⟩ rfl⟩

/-- C5 (amended): an input left unmapped by the confirmations payload is
resolved to whatever `matched_name` the validator produced — with ordered
thresholds that means it is auto-accepted exactly when the best score
reaches the *medium* threshold (tier MEDIUM or HIGH), not only when the
top suggestion is tier HIGH with score ≥ 90; below the medium threshold
the observation is skipped. -/
theorem unmapped_default_accepts_medium
    (confirmations : List (String × Option String)) (input : String)
    (scores : List (String × ℚ)) (thr : Thresholds) (m : ℕ)
    (best : String × ℚ) (rest : List (String × ℚ))
    (hun : lookupConf confirmations input = none)
    (hs : scores = best :: rest)
    (_h1 : thr.low ≤ thr.medium) (h2 : thr.medium ≤ thr.high)
    (h3 : thr.high ≤ 95) :
    (followUpValidateAndMatchEmployee confirmations input
        (findMatchesClassify scores thr m)).matched =
      (findMatchesClassify scores thr m).matched_name ∧
    ((followUpValidateAndMatchEmployee confirmations input
        (findMatchesClassify scores thr m)).matched ≠ none ↔
      thr.medium ≤ best.2) := by
  subst hs
  constructor
  · unfold followUpValidateAndMatchEmployee
    rw [hun]
  · unfold followUpValidateAndMatchEmployee
    rw [hun]
    simp only [findMatchesClassify]
    split_ifs with ha hb hc hd <;> simp_all <;> linarith

/-- Witness for `unmapped_default_accepts_medium`: empty confirmations,
best suggestion "Jack Allan" at 75 (MEDIUM band) — the entry is adopted. -/
theorem unmapped_default_accepts_medium_witness :
    (followUpValidateAndMatchEmployee [] "Jon Alan"
        (findMatchesClassify [("Jack Allan", 75)] defaultThresholds 5)).matched =
      (findMatchesClassify [("Jack Allan", 75)] defaultThresholds 5).matched_name ∧
    ((followUpValidateAndMatchEmployee [] "Jon Alan"
        (findMatchesClassify [("Jack Allan", 75)] defaultThresholds 5)).matched ≠
        none ↔ defaultThresholds.medium ≤ (("Jack Allan", (75 : ℚ))).2) :=
  unmapped_default_accepts_medium [] "Jon Alan" [("Jack Allan", 75)]
    defaultThresholds 5 ("Jack Allan", 75) [] rfl rfl
    (by norm_num [defaultThresholds]) (by norm_num [defaultThresholds])
    (by norm_num [defaultThresholds])

/-- C5 counterexample: an unmapped input whose top suggestion is tier
MEDIUM with score 75 (< 90, not HIGH) is auto-accepted — matched becomes
"Jack Allan" — whereas the claim says it would be skipped. -/
theorem unmapped_medium_counterexample :
    (followUpValidateAndMatchEmployee [] "Jon Alan"
        (findMatchesClassify [("Jack Allan", 75)] defaultThresholds 5)).matched =
      some "Jack Allan" ∧
    (findMatchesClassify [("Jack Allan", 75)] defaultThresholds 5).confidence =
      MatchConfidence.MEDIUM ∧
    (findMatchesClassify [("Jack Allan", 75)] defaultThresholds 5).confidence_score
      < 90 := by
  refine ⟨?_, ?_, ?_⟩ <;>
    · simp only [followUpValidateAndMatchEmployee, lookupConf, List.lookup,
        findMatchesClassify, defaultThresholds]
      norm_num

/-- `validateAndMatchEmployee` of the main processing pass
(`src/app/api/process-timesheets/route.ts` lines 145-216).  The
header-detection heuristic (`raw.length < 3 || raw.includes(':') || ...`)
is passed in as the boolean `headerLike`; its value does not affect the
property of interest since that branch never matches.  `hasExact` is
`Boolean(matchResult.matched_name) && matchResult.confidence_score >= 95`;
a strong top suggestion (score ≥ 70) only records a pending confirmation
and still returns `match: null`. -/
def mainValidateAndMatchEmployee (headerLike : Bool)
    (matchResult : MatchResult) : MatchOutcome :=
  if headerLike then
    ⟨none, 0, MatchConfidence.LOW, [], false⟩
  else if matchResult.matched_name.isSome ∧ 95 ≤ matchResult.confidence_score then
    ⟨matchResult.matched_name, matchResult.confidence_score / 100,
      matchResult.confidence, [], false⟩
  else
    match matchResult.suggestions.head? with
    | some top =>
      if 70 ≤ top.2 then
        ⟨none, matchResult.confidence_score / 100, matchResult.confidence,
          matchResult.suggestions.map Prod.fst, true⟩
      else
        ⟨none, matchResult.confidence_score / 100, matchResult.confidence,
          [], false⟩
    | none =>
      ⟨none, matchResult.confidence_score / 100, matchResult.confidence,
        [], false⟩

/-- C10: in the main pass (taken when no pending confirmations are
outstanding; the confirmations payload only exists in the follow-up
handler) an observation resolves to an identity — and can therefore
contribute ledger entries past the `if (!res.match) continue` guard — only
when the validator matched a known employee with confidence score ≥ 95;
every other observation, including ones with HIGH- or MEDIUM-tier
suggestions below 95, yields `match = null`. -/
theorem main_pass_only_high_matches (headerLike : Bool) (r : MatchResult)
    (n : String)
    (h : (mainValidateAndMatchEmployee headerLike r).matched = some n) :
    r.matched_name = some n ∧ 95 ≤ r.confidence_score := by
  unfold mainValidateAndMatchEmployee at h
  by_cases hh : headerLike
  · rw [if_pos hh] at h
    exact absurd h (by simp)
  · rw [if_neg hh] at h
    by_cases he : r.matched_name.isSome ∧ 95 ≤ r.confidence_score
    · rw [if_pos he] at h
      exact ⟨h, he.2⟩
    · rw [if_neg he] at h
      rcases htop : r.suggestions.head? with _ | top
      · rw [htop] at h
        exact absurd h (by simp)
      · rw [htop] at h
        dsimp only at h
        by_cases hs : (70 : ℚ) ≤ top.2
        · rw [if_pos hs] at h
          exact absurd h (by simp)
        · rw [if_neg hs] at h
          exact absurd h (by simp)

/-- Witness for `main_pass_only_high_matches`: a perfect-score validator
result is adopted by the main pass. -/
theorem main_pass_only_high_matches_witness :
    (⟨some "Jack Allan", MatchConfidence.HIGH, 100,
        [("Jack Allan", 100)], false⟩ : MatchResult).matched_name =
      some "Jack Allan" ∧
    (95 : ℚ) ≤
      (⟨some "Jack Allan", MatchConfidence.HIGH, 100,
        [("Jack Allan", 100)], false⟩ : MatchResult).confidence_score :=
  main_pass_only_high_matches false
    ⟨some "Jack Allan", MatchConfidence.HIGH, 100, [("Jack Allan", 100)], false⟩
    "Jack Allan" (by
      simp only [mainValidateAndMatchEmployee]
      norm_num)

/-- ASCII whitespace recognised by the JS regexes `\s` / `trim` used in
`EnhancedFuzzyMatcher` (the model restricts to the four ASCII whitespace
characters, the only ones the repository's data can contain). -/
def jsIsSpace (c : Char) : Bool :=
  c == ' ' || c == '\t' || c == '\n' || c == '\r'

/-- JS `\w`: `[A-Za-z0-9_]`. -/
def jsIsWordChar (c : Char) : Bool :=
  c.isLower || c.isUpper || c.isDigit || c == '_'

/-- `levenshteinDistance` (`src/server/validation-system.ts` lines
324-350): the DP matrix there fills
`matrix[i][j] = if eq then matrix[i-1][j-1] else 1 + min3`, i.e. the
classic unit-cost insert/delete/substitute recurrence computed here
directly. -/
def levenshteinDistance : List Char → List Char → ℕ
  | [], ys => ys.length
  | xs, [] => xs.length
  | x :: xs, y :: ys =>
    if x = y then levenshteinDistance xs ys
    else 1 + min (levenshteinDistance xs ys)
      (min (levenshteinDistance (x :: xs) ys) (levenshteinDistance xs (y :: ys)))
termination_by a b => a.length + b.length
decreasing_by
  all_goals simp_wf
  all_goals omega

/-- `levenshteinSimilarity` on the 0..1 scale:
`(maxLength - distance) / maxLength`, 1 for two empty strings. -/
def levenshteinSimilarity (str1 str2 : List Char) : ℚ :=
  let maxLength := max str1.length str2.length
  if maxLength = 0 then 1
  else ((maxLength : ℚ) - levenshteinDistance str1 str2) / maxLength

/-- `jaccardSimilarity` on the 0..1 scale: distinct-character-set
intersection over union, 0 when the union is empty. -/
def jaccardSimilarity (str1 str2 : List Char) : ℚ :=
  let set1 := str1.toFinset
  let set2 := str2.toFinset
  if (set1 ∪ set2).card = 0 then 0
  else ((set1 ∩ set2).card : ℚ) / (set1 ∪ set2).card

/-- `str.split(/\s+/).filter(w => w.length > 0)`. -/
def splitWords (l : List Char) : List (List Char) :=
  (l.splitOnP jsIsSpace).filter (fun w => ¬ w = [])

/-- Sequence-from-the-start test used by `containsSeq`. -/
def startsWithSeq : List Char → List Char → Bool
  | _, [] => true
  | [], _ :: _ => false
  | a :: as, b :: bs => a == b && startsWithSeq as bs

/-- JS `String.includes`: contiguous subsequence containment. -/
def containsSeq : List Char → List Char → Bool
  | [], small => small.isEmpty
  | a :: rest, small => startsWithSeq (a :: rest) small || containsSeq rest small

/-- Word-pair acceptance in `wordSimilarity`: equality, one-sided
containment, or pairwise edit similarity above 0.8. -/
def wordMatches (w1 w2 : List Char) : Bool :=
  w1 == w2 || containsSeq w1 w2 || containsSeq w2 w1 ||
    decide ((4 : ℚ) / 5 < levenshteinSimilarity w1 w2)

/-- Scan the available second-list words in order for the first unused
match and remove it (the source keeps a `used` index set; removing the
first match from the availability list is the same discipline). -/
def findRemove (w : List Char) : List (List Char) → Option (List (List Char))
  | [] => none
  | v :: vs =>
    if wordMatches w v then some vs
    else (findRemove w vs).map (fun r => v :: r)

/-- Greedy matched-pair count of `wordSimilarity`'s nested loops. -/
def greedyMatchCount : List (List Char) → List (List Char) → ℕ
  | [], _ => 0
  | w :: ws, avail =>
    match findRemove w avail with
    | some avail2 => 1 + greedyMatchCount ws avail2
    | none => greedyMatchCount ws avail

/-- `wordSimilarity` on the 0..1 scale:
matched pairs / max word count. -/
def wordSimilarity (str1 str2 : List Char) : ℚ :=
  let words1 := splitWords str1
  let words2 := splitWords str2
  if words1 = [] ∧ words2 = [] then 1
  else if words1 = [] ∨ words2 = [] then 0
  else (greedyMatchCount words1 words2 : ℚ) / max words1.length words2.length

/-- `enabledAlgorithms` from the settings manager (`src/unnamed/part_015`),
defaults all `true`. -/
structure EnabledAlgorithms where
  levenshtein : Bool
  jaccard : Bool
  wordLevel : Bool
  deriving DecidableEq, Repr

/-- `Math.round(x * 100) / 100`; JS `Math.round` is
`floor (x + 1/2)`. -/
def roundTo2 (x : ℚ) : ℚ :=
  ((⌊x * 100 + 1 / 2⌋ : ℤ) : ℚ) / 100

/-- `EnhancedFuzzyMatcher.calculateSimilarity`
(`src/server/validation-system.ts` lines 279-312): exact equality
short-circuits to 100; otherwise enabled components are combined with
weights 0.4 / 0.3 / 0.3, normalised by the enabled weight total — and when
`totalWeight` is 0 (every algorithm disabled) the combined score falls
back to the runtime default `0`. -/
def calculateSimilarity (enabled : EnabledAlgorithms)
    (str1 str2 : List Char) : ℚ :=
  if str1 = str2 then 100
  else
    let totalScore :=
      (if enabled.levenshtein then
        levenshteinSimilarity str1 str2 * 100 * (4 / 10) else 0) +
      (if enabled.jaccard then
        jaccardSimilarity str1 str2 * 100 * (3 / 10) else 0) +
      (if enabled.wordLevel then
        wordSimilarity str1 str2 * 100 * (3 / 10) else 0)
    let totalWeight :=
      (if enabled.levenshtein then (4 : ℚ) / 10 else 0) +
      (if enabled.jaccard then (3 : ℚ) / 10 else 0) +
      (if enabled.wordLevel then (3 : ℚ) / 10 else 0)
    roundTo2 (if 0 < totalWeight then totalScore / totalWeight else 0)

/-- C8 (amended): with every similarity sub-algorithm disabled,
`calculateSimilarity` does not signal a configuration error — it is a
total function that returns the runtime default score 0 for any pair of
distinct normalized strings (equal strings still short-circuit to 100). -/
theorem all_disabled_returns_zero (str1 str2 : List Char)
    (h : ¬ str1 = str2) :
    calculateSimilarity ⟨false, false, false⟩ str1 str2 = 0 := by
  unfold calculateSimilarity
  rw [if_neg h]
  norm_num [roundTo2]

/-- Witness for `all_disabled_returns_zero` at the distinct strings
"a" and "b". -/
theorem all_disabled_returns_zero_witness :
    calculateSimilarity ⟨false, false, false⟩ ['a'] ['b'] = 0 :=
  all_disabled_returns_zero ['a'] ['b'] (by decide)

/-- C8 counterexample: for the distinct strings "jon" and "jack" under the
all-disabled configuration, the code produces the plain score 0 — the very
runtime default the claim says is replaced by an explicit failure
signal. -/
theorem all_disabled_counterexample :
    calculateSimilarity ⟨false, false, false⟩ ['j', 'o', 'n']
        ['j', 'a', 'c', 'k'] = 0 ∧
    (['j', 'o', 'n'] : List Char) ≠ ['j', 'a', 'c', 'k'] := by
  constructor
  · unfold calculateSimilarity
    rw [if_neg (by decide)]
    norm_num [roundTo2]
  · decide

/-- JS `String.prototype.trim`: drop whitespace from both ends. -/
def trimChars (l : List Char) : List Char :=
  ((l.dropWhile jsIsSpace).reverse.dropWhile jsIsSpace).reverse

/-- `replace(/\s+/g, ' ')`: each maximal whitespace run becomes one
space. -/
def collapseWhitespace : List Char → List Char
  | [] => []
  | [a] => if jsIsSpace a then [' '] else [a]
  | a :: b :: rest2 =>
    if jsIsSpace a then
      if jsIsSpace b then collapseWhitespace (b :: rest2)
      else ' ' :: collapseWhitespace (b :: rest2)
    else a :: collapseWhitespace (b :: rest2)

/-- `EnhancedFuzzyMatcher.normalizeString`
(`src/server/validation-system.ts` lines 403-409):
`str.toLowerCase().trim().replace(/[^\w\s]/g, '').replace(/\s+/g, ' ')` —
note the trim happens *before* punctuation removal.  Core `Char.toLower`
is exactly the JS ASCII lowering. -/
def normalizeString (s : List Char) : List Char :=
  collapseWhitespace
    ((trimChars (s.map Char.toLower)).filter
      (fun c => jsIsWordChar c || jsIsSpace c))

theorem toNat_ofNat_valid (n : ℕ) (h : n.isValidChar) :
    (Char.ofNat n).toNat = n := by
  rw [Char.ofNat, dif_pos h]
  rfl

theorem toLower_not_upper (c : Char) :
    ¬ (65 ≤ (Char.toLower c).toNat ∧ (Char.toLower c).toNat ≤ 90) := by
  simp only [Char.toLower]
  split_ifs with h
  · rw [toNat_ofNat_valid _ (Or.inl (by omega))]
    omega
  · exact fun hc => h ⟨hc.1, hc.2⟩

theorem toLower_fixed (c : Char)
    (h : ¬ (65 ≤ c.toNat ∧ c.toNat ≤ 90)) : Char.toLower c = c := by
  unfold Char.toLower
  rw [if_neg (fun hc => h ⟨hc.1, hc.2⟩)]

theorem toLower_toLower (c : Char) :
    Char.toLower (Char.toLower c) = Char.toLower c :=
  toLower_fixed _ (toLower_not_upper c)

theorem space_of_jsIsSpace {c : Char} (h : jsIsSpace c = true) :
    c = ' ' ∨ c = '\t' ∨ c = '\n' ∨ c = '\r' := by
  simp only [jsIsSpace, Bool.or_eq_true, beq_iff_eq] at h
  tauto

theorem not_word_of_space {c : Char} (h : jsIsSpace c = true) :
    jsIsWordChar c = false := by
  rcases space_of_jsIsSpace h with h | h | h | h <;> subst h <;> decide

theorem mem_collapseWhitespace {c : Char} {l : List Char}
    (h : c ∈ collapseWhitespace l) :
    c = ' ' ∨ (c ∈ l ∧ jsIsSpace c = false) := by
  induction l with
  | nil => simp [collapseWhitespace] at h
  | cons a rest ih =>
    cases rest with
    | nil =>
      by_cases ha : jsIsSpace a = true
      · simp [collapseWhitespace, ha] at h
        left
        exact h
      · simp [collapseWhitespace, ha] at h
        right
        refine ⟨by simp [h], ?_⟩
        rw [h]
        exact eq_false_of_ne_true ha
    | cons b rest2 =>
      by_cases ha : jsIsSpace a = true
      · by_cases hb : jsIsSpace b = true
        · simp [collapseWhitespace, ha, hb] at h
          rcases ih h with h1 | h1
          · left; exact h1
          · right
            exact ⟨List.mem_cons_of_mem a h1.1, h1.2⟩
        · simp [collapseWhitespace, ha, hb] at h
          rcases h with h1 | h1
          · left; exact h1
          · rcases ih h1 with h2 | h2
            · left; exact h2
            · right
              exact ⟨List.mem_cons_of_mem a h2.1, h2.2⟩
      · simp [collapseWhitespace, ha] at h
        rcases h with h1 | h1
        · right
          subst h1
          exact ⟨List.mem_cons_self c (b :: rest2), eq_false_of_ne_true ha⟩
        · rcases ih h1 with h2 | h2
          · left; exact h2
          · right
            exact ⟨List.mem_cons_of_mem a h2.1, h2.2⟩

theorem head?_collapseWhitespace (x : Char) (xs : List Char) :
    (collapseWhitespace (x :: xs)).head? =
      some (if jsIsSpace x = true then ' ' else x) := by
  induction xs generalizing x with
  | nil =>
    by_cases hx : jsIsSpace x = true <;>
      simp [collapseWhitespace, hx]
  | cons b rest2 ih =>
    by_cases hx : jsIsSpace x = true
    · by_cases hb : jsIsSpace b = true
      · simp only [collapseWhitespace, hx, hb]
        simp only [if_true]
        rw [ih b]
        simp [hb, hx]
      · simp [collapseWhitespace, hx, hb]
    · simp [collapseWhitespace, hx]

/-- In collapsed output no two adjacent characters are both whitespace. -/
theorem chain'_collapseWhitespace (l : List Char) :
    List.Chain' (fun a b => ¬ (jsIsSpace a = true ∧ jsIsSpace b = true))
      (collapseWhitespace l) := by
  induction l with
  | nil => simp [collapseWhitespace]
  | cons a rest ih =>
    cases rest with
    | nil =>
      by_cases ha : jsIsSpace a = true <;>
        simp [collapseWhitespace, ha]
    | cons b rest2 =>
      by_cases ha : jsIsSpace a = true
      · by_cases hb : jsIsSpace b = true
        · simpa [collapseWhitespace, ha, hb] using ih
        · have hgoal : collapseWhitespace (a :: b :: rest2) =
              ' ' :: collapseWhitespace (b :: rest2) := by
            simp [collapseWhitespace, ha, hb]
          rw [hgoal, List.chain'_cons']
          refine ⟨?_, ih⟩
          intro y hy
          rw [head?_collapseWhitespace b rest2, if_neg hb] at hy
          simp only [Option.mem_def, Option.some.injEq] at hy
          subst hy
          exact fun hc => hb hc.2
      · have hgoal : collapseWhitespace (a :: b :: rest2) =
            a :: collapseWhitespace (b :: rest2) := by
          simp [collapseWhitespace, ha]
        rw [hgoal, List.chain'_cons']
        refine ⟨?_, ih⟩
        intro y hy
        exact fun hc => ha hc.1

/-- Collapsing is the identity on a list with no adjacent whitespace pair
whose whitespace characters are all the plain space. -/
theorem collapseWhitespace_fixed (l : List Char)
    (hsp : ∀ c ∈ l, jsIsSpace c = true → c = ' ')
    (hch : List.Chain' (fun a b => ¬ (jsIsSpace a = true ∧ jsIsSpace b = true)) l) :
    collapseWhitespace l = l := by
  induction l with
  | nil => rfl
  | cons a rest ih =>
    rw [List.chain'_cons'] at hch
    cases rest with
    | nil =>
      by_cases ha : jsIsSpace a = true
      · have haeq : a = ' ' := hsp a (List.mem_cons_self a []) ha
        simp [collapseWhitespace, ha, haeq]
      · simp [collapseWhitespace, ha]
    | cons b rest2 =>
      by_cases ha : jsIsSpace a = true
      · have haeq : a = ' ' := hsp a (List.mem_cons_self a (b :: rest2)) ha
        have hb : ¬ jsIsSpace b = true := by
          intro hb
          exact hch.1 b (by simp) ⟨ha, hb⟩
        have hgoal : collapseWhitespace (a :: b :: rest2) =
            ' ' :: collapseWhitespace (b :: rest2) := by
          simp [collapseWhitespace, ha, hb]
        rw [hgoal,
          ih (fun c hc hc2 => hsp c (List.mem_cons_of_mem _ hc) hc2) hch.2,
          haeq]
      · have hgoal : collapseWhitespace (a :: b :: rest2) =
            a :: collapseWhitespace (b :: rest2) := by
          simp [collapseWhitespace, ha]
        rw [hgoal,
          ih (fun c hc hc2 => hsp c (List.mem_cons_of_mem _ hc) hc2) hch.2]

theorem dropWhile_eq_self_of_head (p : Char → Bool) (l : List Char)
    (h : ∀ c, l.head? = some c → p c = false) : l.dropWhile p = l := by
  cases l with
  | nil => rfl
  | cons a rest =>
    rw [List.dropWhile_cons, if_neg]
    simp [h a rfl]

theorem trimChars_eq_self (l : List Char)
    (h1 : ∀ c, l.head? = some c → jsIsSpace c = false)
    (h2 : ∀ c, l.getLast? = some c → jsIsSpace c = false) :
    trimChars l = l := by
  unfold trimChars
  rw [dropWhile_eq_self_of_head jsIsSpace l h1,
    dropWhile_eq_self_of_head jsIsSpace l.reverse
      (fun c hc => h2 c (by rwa [List.head?_reverse] at hc)),
    List.reverse_reverse]

/-- Every character of a normalized string is either the plain space or a
lowercase-fixed word character. -/
theorem mem_normalizeString {c : Char} {s : List Char}
    (h : c ∈ normalizeString s) :
    c = ' ' ∨
      (jsIsWordChar c = true ∧ jsIsSpace c = false ∧ Char.toLower c = c) := by
  unfold normalizeString at h
  rcases mem_collapseWhitespace h with h1 | h1
  · left; exact h1
  · right
    have hf := List.mem_filter.mp h1.1
    have hmem : c ∈ s.map Char.toLower := by
      have := hf.1
      unfold trimChars at this
      have h3 := List.mem_reverse.mp this
      have h4 := (List.dropWhile_sublist jsIsSpace).mem h3
      have h5 := List.mem_reverse.mp h4
      exact (List.dropWhile_sublist jsIsSpace).mem h5
    rcases List.mem_map.mp hmem with ⟨x, _, hx⟩
    have hfix : Char.toLower c = c := by
      rw [← hx]
      exact toLower_toLower x
    have hword : jsIsWordChar c = true := by
      have := hf.2
      simp only [Bool.or_eq_true] at this
      rcases this with hw | hsp
      · exact hw
      · rw [h1.2] at hsp
        exact absurd hsp (by simp)
    exact ⟨hword, h1.2, hfix⟩

/-- C7 (amended): the normalizer is idempotent on every string whose
normalized form neither starts nor ends with a space; because the source
trims *before* removing punctuation, removing a leading/trailing
punctuation character can expose a space that a second pass would trim
away, which is the only failure mode. -/
theorem normalizeString_idem_of_trimmed (s : List Char)
    (h1 : ¬ (normalizeString s).head? = some ' ')
    (h2 : ¬ (normalizeString s).getLast? = some ' ') :
    normalizeString (normalizeString s) = normalizeString s := by
  have hmem : ∀ c ∈ normalizeString s,
      c = ' ' ∨
        (jsIsWordChar c = true ∧ jsIsSpace c = false ∧ Char.toLower c = c) :=
    fun c hc => mem_normalizeString hc
  have hlower : (normalizeString s).map Char.toLower = normalizeString s := by
    have := List.map_congr_left (l := normalizeString s)
      (f := Char.toLower) (g := id) ?_
    · simpa using this
    · intro a ha
      rcases hmem a ha with h | h
      · subst h; decide
      · exact h.2.2
  have hspchar : ∀ c ∈ normalizeString s, jsIsSpace c = true → c = ' ' := by
    intro c hc hsp
    rcases hmem c hc with h | h
    · exact h
    · rw [h.2.1] at hsp
      exact absurd hsp (by simp)
  have hhead : ∀ c, (normalizeString s).head? = some c → jsIsSpace c = false := by
    intro c hc
    by_contra hsp
    have := hspchar c (List.mem_of_mem_head? hc) (by
      cases h : jsIsSpace c
      · exact absurd h hsp
      · rfl)
    subst this
    exact h1 hc
  have hlast : ∀ c, (normalizeString s).getLast? = some c →
      jsIsSpace c = false := by
    intro c hc
    by_contra hsp
    have := hspchar c (List.mem_of_mem_getLast? hc) (by
      cases h : jsIsSpace c
      · exact absurd h hsp
      · rfl)
    subst this
    exact h2 hc
  have hfilter : (normalizeString s).filter
      (fun c => jsIsWordChar c || jsIsSpace c) = normalizeString s := by
    rw [List.filter_eq_self]
    intro a ha
    rcases hmem a ha with h | h
    · subst h; decide
    · simp [h.1]
  conv_lhs => rw [normalizeString]
  rw [hlower, trimChars_eq_self _ hhead hlast, hfilter]
  exact collapseWhitespace_fixed _ hspchar
    (by
      rw [normalizeString]
      exact chain'_collapseWhitespace _)

/-- Witness for `normalizeString_idem_of_trimmed` at the string "Ab". -/
theorem normalizeString_idem_witness :
    normalizeString (normalizeString ['A', 'b']) = normalizeString ['A', 'b'] :=
  normalizeString_idem_of_trimmed ['A', 'b'] (by decide) (by decide)

/-- C7 counterexample: for the string ". a" the normalizer returns " a"
(the trim ran before the punctuation removal exposed the leading space),
and a second application returns "a", so `N (N s) ≠ N s`. -/
theorem normalizeString_not_idempotent :
    normalizeString (normalizeString ['.', ' ', 'a']) ≠
      normalizeString ['.', ' ', 'a'] := by
  decide

end XeroTimesheets
